import Mathlib

/-!
Shallow embedding of `bin/plugin/commands/performance.js`: the statistical
curation core (`average`, `median`, `formatTime`, `curateResults`), the
per-suite runner (`runTestSuite`), the orchestration branch loop of
`runPerformanceTests`, and the WordPress-version canonicalization regex.

JavaScript numbers are modelled by `JSNum`: an exact rational together with
the IEEE special values `NaN`, `+Infinity` and `-Infinity`.  All raw inputs
come from JSON files, hence are finite; the special values arise only from
degenerate operations (`0/0`, `Math.min()` of no arguments, …), whose
propagation rules are modelled exactly.
-/

/-- A JavaScript number: a finite value (modelled exactly as a rational) or
one of the IEEE special values. -/
inductive JSNum where
  | num : ℚ → JSNum
  | nan : JSNum
  | posInf : JSNum
  | negInf : JSNum
deriving DecidableEq

namespace JSNum

/-- JavaScript addition `a + b` on numbers (special-value propagation as in
IEEE-754; finite arithmetic is exact). -/
def jsAdd : JSNum → JSNum → JSNum
  | nan, _ => nan
  | _, nan => nan
  | posInf, negInf => nan
  | negInf, posInf => nan
  | posInf, _ => posInf
  | _, posInf => posInf
  | negInf, _ => negInf
  | _, negInf => negInf
  | num a, num b => num (a + b)

/-- JavaScript unary negation. -/
def jsNeg : JSNum → JSNum
  | nan => nan
  | posInf => negInf
  | negInf => posInf
  | num a => num (-a)

/-- JavaScript subtraction `a - b`, i.e. `a + (-b)`. -/
def jsSub (a b : JSNum) : JSNum := jsAdd a (jsNeg b)

/-- JavaScript multiplication `a * b`. -/
def jsMul : JSNum → JSNum → JSNum
  | nan, _ => nan
  | _, nan => nan
  | posInf, posInf => posInf
  | posInf, negInf => negInf
  | negInf, posInf => negInf
  | negInf, negInf => posInf
  | posInf, num b => if b = 0 then nan else if 0 < b then posInf else negInf
  | num a, posInf => if a = 0 then nan else if 0 < a then posInf else negInf
  | negInf, num b => if b = 0 then nan else if 0 < b then negInf else posInf
  | num a, negInf => if a = 0 then nan else if 0 < a then negInf else posInf
  | num a, num b => num (a * b)

/-- JavaScript division `a / b` (`0/0 = NaN`, `x/0 = ±Infinity` for `x ≠ 0`). -/
def jsDiv : JSNum → JSNum → JSNum
  | nan, _ => nan
  | _, nan => nan
  | posInf, posInf => nan
  | posInf, negInf => nan
  | negInf, posInf => nan
  | negInf, negInf => nan
  | posInf, num b => if 0 ≤ b then posInf else negInf
  | negInf, num b => if 0 ≤ b then negInf else posInf
  | num _, posInf => num 0
  | num _, negInf => num 0
  | num a, num b =>
      if b = 0 then (if a = 0 then nan else if 0 < a then posInf else negInf)
      else num (a / b)

/-- JavaScript `Math.round`: nearest integer, halves toward `+Infinity`. -/
def jsRound : JSNum → JSNum
  | nan => nan
  | posInf => posInf
  | negInf => negInf
  | num a => num ((⌊a + 1/2⌋ : ℤ) : ℚ)

/-- `isFinite` on a JavaScript number. -/
def isFiniteJS : JSNum → Bool
  | num _ => true
  | _ => false

end JSNum

open JSNum

/-- The comparison used by `[...array].sort((a, b) => a - b)`: the ECMAScript
`SortCompare` evaluates the comparator `a - b` and treats a `NaN` result as
equality. -/
def jsCmp (a b : JSNum) : Ordering :=
  match jsSub a b with
  | .num q => if q < 0 then .lt else if 0 < q then .gt else .eq
  | .nan => .eq
  | .posInf => .gt
  | .negInf => .lt

/-- One insertion step of the sort performed by
`[...array].sort((a, b) => a - b)`: place `a` before the first element
strictly above it. -/
def jsSortInsert (a : JSNum) : List JSNum → List JSNum
  | [] => [a]
  | b :: l =>
    match jsCmp a b with
    | .lt => a :: b :: l
    | _ => b :: jsSortInsert a l

/-- The ascending numeric sort `[...array].sort((a, b) => a - b)` used by
`median` (an insertion sort; on consistent comparators it produces the unique
ascending reordering, which is all the source relies on). -/
def jsSortAsc (l : List JSNum) : List JSNum := l.foldr jsSortInsert []

/-- `average` from `performance.js`:
`array.reduce((a, b) => a + b, 0) / array.length`. -/
def average (array : List ℚ) : JSNum :=
  jsDiv (array.foldl (fun a b => jsAdd a (.num b)) (.num 0)) (.num array.length)

/-- `median` from `performance.js`: sort ascending with comparator
`(a, b) => a - b`, take the middle element for odd lengths, the average of
the two middle elements for even lengths.  An out-of-range index yields
`undefined` in JavaScript, which behaves as `NaN` under the arithmetic
performed here, hence the `NaN` defaults. -/
def median (array : List JSNum) : JSNum :=
  let mid := array.length / 2
  let numbers := jsSortAsc array
  if array.length % 2 ≠ 0 then numbers.getD mid .nan
  else jsDiv (jsAdd (numbers.getD (mid - 1) .nan) (numbers.getD mid .nan)) (.num 2)

/-- `formatTime` from `performance.js`:
`Math.round(number * 10^2) / 10^2`. -/
def formatTime (number : JSNum) : JSNum :=
  let factor : JSNum := .num 100
  jsDiv (jsRound (jsMul number factor)) factor

/-- `Math.min(...array)` over the (finite) numbers read from a results file:
`Infinity` for no arguments, otherwise the least argument. -/
def mathMin (array : List ℚ) : JSNum :=
  match array with
  | [] => .posInf
  | a :: l => .num (l.foldl min a)

/-- `Math.max(...array)`: `-Infinity` for no arguments, otherwise the
greatest argument. -/
def mathMax (array : List ℚ) : JSNum :=
  match array with
  | [] => .negInf
  | a :: l => .num (l.foldl max a)

/-- `WPRawPerformanceResults`: the raw sample read back from a test run, one
ordered sequence of observations per tracked metric. -/
structure WPRawPerformanceResults where
  load : List ℚ
  type : List ℚ
  focus : List ℚ
  inserterOpen : List ℚ
  inserterHover : List ℚ
deriving DecidableEq

/-- `WPPerformanceResults`: the curated result, one number per derived
metric key. -/
structure WPPerformanceResults where
  load : JSNum
  type : JSNum
  minType : JSNum
  maxType : JSNum
  focus : JSNum
  minFocus : JSNum
  maxFocus : JSNum
  inserterOpen : JSNum
  minInserterOpen : JSNum
  maxInserterOpen : JSNum
  inserterHover : JSNum
  minInserterHover : JSNum
  maxInserterHover : JSNum
deriving DecidableEq

/-- `curateResults` from `performance.js`: mean of `load`, and mean/min/max
of each distribution metric, each computed directly from the raw sequence. -/
def curateResults (results : WPRawPerformanceResults) : WPPerformanceResults :=
  { load := average results.load
    type := average results.type
    minType := mathMin results.type
    maxType := mathMax results.type
    focus := average results.focus
    minFocus := mathMin results.focus
    maxFocus := mathMax results.focus
    inserterOpen := average results.inserterOpen
    minInserterOpen := mathMin results.inserterOpen
    maxInserterOpen := mathMax results.inserterOpen
    inserterHover := average results.inserterHover
    minInserterHover := mathMin results.inserterHover
    maxInserterHover := mathMax results.inserterHover }

/-- The thirteen derived metric keys of a `WPPerformanceResults`, in the
property order of the object literals in `curateResults` and
`runTestSuite`. -/
inductive MetricKey where
  | load | type | minType | maxType
  | focus | minFocus | maxFocus
  | inserterOpen | minInserterOpen | maxInserterOpen
  | inserterHover | minInserterHover | maxInserterHover
deriving DecidableEq

/-- Field access of a `WPPerformanceResults` by metric key. -/
def getMetric (r : WPPerformanceResults) : MetricKey → JSNum
  | .load => r.load
  | .type => r.type
  | .minType => r.minType
  | .maxType => r.maxType
  | .focus => r.focus
  | .minFocus => r.minFocus
  | .maxFocus => r.maxFocus
  | .inserterOpen => r.inserterOpen
  | .minInserterOpen => r.minInserterOpen
  | .maxInserterOpen => r.maxInserterOpen
  | .inserterHover => r.inserterHover
  | .minInserterHover => r.minInserterHover
  | .maxInserterHover => r.maxInserterHover

/-- The metric keys in object-literal order (also the iteration order of
`Object.keys` over a curated result). -/
def metricKeys : List MetricKey :=
  [.load, .type, .minType, .maxType, .focus, .minFocus, .maxFocus,
   .inserterOpen, .minInserterOpen, .maxInserterOpen,
   .inserterHover, .minInserterHover, .maxInserterHover]

/-- `mapValues` of lodash specialised to a curated-result object: apply `f`
to the value at every metric key. -/
def mapMetrics (f : JSNum → JSNum) (r : WPPerformanceResults) : WPPerformanceResults :=
  { load := f r.load
    type := f r.type
    minType := f r.minType
    maxType := f r.maxType
    focus := f r.focus
    minFocus := f r.minFocus
    maxFocus := f r.maxFocus
    inserterOpen := f r.inserterOpen
    minInserterOpen := f r.minInserterOpen
    maxInserterOpen := f r.maxInserterOpen
    inserterHover := f r.inserterHover
    minInserterHover := f r.minInserterHover
    maxInserterHover := f r.maxInserterHover }

/-- The `for (let i = 0; i < 3; i++)` loop body of `runTestSuite`: on
iteration `i` run the external test executor (`shell`), read back the raw
results file (`readF`), curate, and push.  Both external steps may fail;
the `Except` bind makes any failure abort the whole run, as an awaited
rejection does in the source. -/
def runRepeats (shell : String → ℕ → Except String Unit)
    (readF : String → ℕ → Except String WPRawPerformanceResults)
    (testSuite : String) : ℕ → Except String (List WPPerformanceResults)
  | 0 => Except.ok []
  | n + 1 =>
    match runRepeats shell readF testSuite n with
    | .error e => .error e
    | .ok results =>
      match shell testSuite n with
      | .error e => .error e
      | .ok _ =>
        match readF testSuite n with
        | .error e => .error e
        | .ok rawResults => .ok (results ++ [curateResults rawResults])

/-- `runTestSuite` from `performance.js`: run the suite 3 times, curate each
raw result, take the per-key median across the 3 curated results, and format
every value with `formatTime`.  The external test executor and the results
file read are passed in as the `shell` and `readF` collaborators, indexed by
suite name and iteration. -/
def runTestSuite (shell : String → ℕ → Except String Unit)
    (readF : String → ℕ → Except String WPRawPerformanceResults)
    (testSuite : String) : Except String WPPerformanceResults :=
  match runRepeats shell readF testSuite 3 with
  | .error e => .error e
  | .ok results =>
    .ok (mapMetrics formatTime
    { load := median (results.map (·.load))
      type := median (results.map (·.type))
      minType := median (results.map (·.minType))
      maxType := median (results.map (·.maxType))
      focus := median (results.map (·.focus))
      minFocus := median (results.map (·.minFocus))
      maxFocus := median (results.map (·.maxFocus))
      inserterOpen := median (results.map (·.inserterOpen))
      minInserterOpen := median (results.map (·.minInserterOpen))
      maxInserterOpen := median (results.map (·.maxInserterOpen))
      inserterHover := median (results.map (·.inserterHover))
      minInserterHover := median (results.map (·.minInserterHover))
      maxInserterHover := median (results.map (·.maxInserterHover)) })

/-- Association-list lookup (first match wins), the model of JavaScript
property access on the accumulated result objects. -/
def alookup {K V : Type} [DecidableEq K] (k : K) : List (K × V) → Option V
  | [] => none
  | p :: ps => if p.1 = k then some p.2 else alookup k ps

/-- The JavaScript object operation `{ ...m, [k]: v }`: if `k` is already a
property its value is replaced at its original position, otherwise the
property is appended last. -/
def objSet {K V : Type} [DecidableEq K] (m : List (K × V)) (k : K) (v : V) : List (K × V) :=
  if (alookup k m).isSome then m.map (fun p => if p.1 = k then (k, v) else p)
  else m ++ [(k, v)]

/-- A branch-keyed map of curated suite results (`results[testSuite]`). -/
abbrev SuiteTable := List (String × WPPerformanceResults)

/-- The accumulated `results` object: suite name to branch name to result. -/
abbrev ResultsTable := List (String × SuiteTable)

/-- The update `results = { ...results, [testSuite]: { ...results[testSuite],
[branch]: v } }` performed after each suite run. -/
def insertResult (results : ResultsTable) (testSuite branch : String)
    (v : WPPerformanceResults) : ResultsTable :=
  objSet results testSuite (objSet ((alookup testSuite results).getD []) branch v)

/-- Nested lookup `results[testSuite][branch]`. -/
def lookup2 (results : ResultsTable) (testSuite branch : String) : Option WPPerformanceResults :=
  (alookup testSuite results).bind (fun inner => alookup branch inner)

/-- The fixed suite list of `runPerformanceTests`. -/
def testSuites : List String := ["post-editor", "site-editor"]

/-- Externally observable steps of the orchestration loop: the per-branch
git/build setup (`setUpGitBranch`), one suite execution, and the
`npm run wp-env stop` shell command. -/
inductive OrchEvent where
  | setUpGit (branch : String)
  | runSuiteCmd (testSuite branch : String)
  | stopEnv
deriving DecidableEq

/-- The inner `for (const testSuite of testSuites)` loop for one branch:
run each suite in order, merging each result into the table; a failed suite
run aborts with the events so far and the table as last merged. -/
def runSuitesLoop (runSuite : String → String → Except String WPPerformanceResults)
    (branch : String) :
    List String → ResultsTable → List OrchEvent × ResultsTable × Option String
  | [], results => ([], results, none)
  | ts :: rest, results =>
    match runSuite ts branch with
    | .error e => ([.runSuiteCmd ts branch], results, some e)
    | .ok v =>
      let r := runSuitesLoop runSuite branch rest (insertResult results ts branch v)
      (.runSuiteCmd ts branch :: r.1, r.2)

/-- The outer `for (const branch of branches)` loop: set up the branch
(which may fail), then run every suite against it.  Any failure aborts the
whole loop with the error. -/
def branchLoop (setUp : String → Except String Unit)
    (runSuite : String → String → Except String WPPerformanceResults) :
    List String → ResultsTable → List OrchEvent × ResultsTable × Option String
  | [], results => ([], results, none)
  | b :: bs, results =>
    match setUp b with
    | .error e => ([.setUpGit b], results, some e)
    | .ok _ =>
      let r := runSuitesLoop runSuite b testSuites results
      match r.2.2 with
      | some e => (.setUpGit b :: r.1, r.2.1, some e)
      | none =>
        let r2 := branchLoop setUp runSuite bs r.2.1
        (.setUpGit b :: r.1 ++ r2.1, r2.2)

/-- The branch normalization at the top of `runPerformanceTests`: an empty
input list becomes the single branch `trunk`. -/
def normalizeBranches (branches : List String) : List String :=
  if branches.length = 0 then ["trunk"] else branches

/-- The core of `runPerformanceTests` (lines 194–302): normalize the branch
list, run the branch loop against an empty table, and — only when the loop
completed without error — execute the `npm run wp-env stop` step.  The
plumbing before the loop (confirmation prompt, clone, install, version
patching) involves no result accumulation and is modelled separately
(`zipVersion`).  Returns the event trace, the accumulated table, and the
error, if any, that unwound the run. -/
def runPerformanceTests (setUp : String → Except String Unit)
    (runSuite : String → String → Except String WPPerformanceResults)
    (branches : List String) : List OrchEvent × ResultsTable × Option String :=
  let branches' := normalizeBranches branches
  let r := branchLoop setUp runSuite branches' []
  match r.2.2 with
  | some e => (r.1, r.2.1, some e)
  | none => (r.1 ++ [.stopEnv], r.2.1, none)

/-- Whether the regex metacharacter `.` (no `s` flag) matches a character:
everything except the ECMAScript line terminators. -/
def jsDotChar (c : Char) : Bool :=
  !(c = '\n' || c = '\r' || c = Char.ofNat 0x2028 || c = Char.ofNat 0x2029)

/-- After `(\d+\.\d+)` has consumed `j` digits of the second digit run `d2`
(with `r3` the text after that run), does the remaining pattern `.0` match
here?  The next character may be anything `.` matches, the one after must be
the literal `0`. -/
def dotZeroAt (d2 r3 : List Char) (j : ℕ) : Bool :=
  let t := d2.drop j ++ r3
  match t[0]?, t[1]? with
  | some c, some c2 => jsDotChar c && (c2 = '0')
  | _, _ => false

/-- Greedy backtracking for the second `\d+` of `/^(\d+\.\d+).0/`: the
largest `j ≥ 1` (trying `n` first, counting down) at which `.0` matches. -/
def bestJ (d2 r3 : List Char) : ℕ → Option ℕ
  | 0 => none
  | j + 1 => if dotZeroAt d2 r3 (j + 1) then some (j + 1) else bestJ d2 r3 j

/-- `wpVersion.replace(/^(\d+\.\d+).0/, '$1')` on the character list: the
first `\d+` must be the maximal leading digit run (a shorter choice puts a
digit where `\.` expects the dot), followed by a literal dot; the second
`\d+` is resolved greedily by `bestJ`; on a match the matched text is
replaced by the group `(\d+\.\d+)` and the rest of the input is kept.  Note
the unescaped `.` before the `0` in the source pattern. -/
def zipVersionChars (s : List Char) : List Char :=
  let d1 := s.takeWhile Char.isDigit
  let r1 := s.dropWhile Char.isDigit
  if d1 = [] then s
  else
    match r1 with
    | '.' :: r2 =>
      let d2 := r2.takeWhile Char.isDigit
      let r3 := r2.dropWhile Char.isDigit
      match bestJ d2 r3 d2.length with
      | none => s
      | some j => d1 ++ '.' :: d2.take j ++ (d2.drop j ++ r3).drop 2
    | _ => s

/-- The `zipVersion` computed by `runPerformanceTests` when a target
WordPress version is requested:
`options.wpVersion.replace(/^(\d+\.\d+).0/, '$1')`. -/
def zipVersion (wpVersion : String) : String :=
  String.mk (zipVersionChars wpVersion.data)

/-- Split a character list at every `'.'` (the dot-separated components of a
version string). -/
def splitOnDot : List Char → List (List Char)
  | [] => [[]]
  | c :: t =>
    if c = '.' then [] :: splitOnDot t
    else
      match splitOnDot t with
      | [] => [[c]]
      | h :: r => (c :: h) :: r

/-- Modelled from the spec: "patch-level versions ending in `.0` are
canonicalized to the major.minor form … all other versions left unchanged".
A version `major.minor.0` (decimal numerals) maps to `major.minor`; every
other input is returned unchanged.  Used only to compare the spec's claim
with the source's `zipVersion`. -/
def specZipVersion (wpVersion : String) : String :=
  match splitOnDot wpVersion.data with
  | [maj, minor, p] =>
    if maj ≠ [] ∧ minor ≠ [] ∧ maj.all Char.isDigit ∧ minor.all Char.isDigit ∧ p = ['0'] then
      String.mk (maj ++ '.' :: minor)
    else wpVersion
  | _ => wpVersion

/-- One step of the display-table inversion in `runPerformanceTests`
(lines 310–323): ensure the row for this metric exists, then record
`val[entry] + ' ms'` under the branch key — but only when the value is
finite. -/
def invertStep (numToString : JSNum → String) (branch : String)
    (val : WPPerformanceResults)
    (acc : List (MetricKey × List (String × String))) (entry : MetricKey) :
    List (MetricKey × List (String × String)) :=
  let acc := if (alookup entry acc).isSome then acc else acc ++ [(entry, [])]
  if isFiniteJS (getMetric val entry) then
    objSet acc entry
      (objSet ((alookup entry acc).getD []) branch
        (numToString (getMetric val entry) ++ " ms"))
  else acc

/-- The `invertedResult` built for display: reduce over the branch-keyed
entries, and for each of the 13 metric keys record the formatted value.
`numToString` is the JavaScript number-to-string conversion of the logger,
an external presentation collaborator with no contract on content. -/
def invertedResult (numToString : JSNum → String) (suiteResults : SuiteTable) :
    List (MetricKey × List (String × String)) :=
  suiteResults.foldl
    (fun acc kv => metricKeys.foldl (invertStep numToString kv.1 kv.2) acc) []

/-- A JSON value as produced by `JSON.stringify` (only the constructors the
artifact needs). -/
inductive JsonValue where
  | null
  | num (q : ℚ)
  | str (s : String)
  | obj (fields : List (String × JsonValue))

/-- The JSON property name of each metric key. -/
def metricKeyName : MetricKey → String
  | .load => "load"
  | .type => "type"
  | .minType => "minType"
  | .maxType => "maxType"
  | .focus => "focus"
  | .minFocus => "minFocus"
  | .maxFocus => "maxFocus"
  | .inserterOpen => "inserterOpen"
  | .minInserterOpen => "minInserterOpen"
  | .maxInserterOpen => "maxInserterOpen"
  | .inserterHover => "inserterHover"
  | .minInserterHover => "minInserterHover"
  | .maxInserterHover => "maxInserterHover"

/-- `JSON.stringify` of a number: finite values serialize as numbers,
`NaN` and the infinities as `null` — the key is kept either way. -/
def jsonOfJSNum : JSNum → JsonValue
  | .num q => .num q
  | _ => .null

/-- `JSON.stringify` of one curated result: every metric key is emitted, in
object order, with no finiteness filter. -/
def jsonOfResults (r : WPPerformanceResults) : JsonValue :=
  .obj (metricKeys.map fun k => (metricKeyName k, jsonOfJSNum (getMetric r k)))

/-- The artifact written to `<suite>-performance-results.json`: the
untransposed branch-keyed mapping `results[testSuite]`, serialized. -/
def performanceResultsArtifact (suiteResults : SuiteTable) : JsonValue :=
  .obj (suiteResults.map fun p => (p.1, jsonOfResults p.2))

/-- Insertion into a sorted rational list, placing the new element after any
equal elements (the insertion performed by `jsSortInsert` on finite
values). -/
def qInsert (a : ℚ) : List ℚ → List ℚ
  | [] => [a]
  | b :: l => if a < b then a :: b :: l else b :: qInsert a l

/-- The rational-level insertion sort that `jsSortAsc` performs on lists of
finite values. -/
def qSort (l : List ℚ) : List ℚ := l.foldr qInsert []

/-- The mean/min/max contract of one distribution metric: the mean of the
raw sequence, a least member, and a greatest member. -/
def distCurated (seq : List ℚ) (meanV minV maxV : JSNum) : Prop :=
  meanV = .num (seq.sum / seq.length) ∧
  (∃ m : ℚ, minV = .num m ∧ m ∈ seq ∧ ∀ x ∈ seq, m ≤ x) ∧
  (∃ m : ℚ, maxV = .num m ∧ m ∈ seq ∧ ∀ x ∈ seq, x ≤ m)

/-- A concrete raw sample used to instantiate hypotheses. -/
def sampleRaw : WPRawPerformanceResults :=
  { load := [1, 2]
    type := [10, 20, 30]
    focus := [1, 3]
    inserterOpen := [2, 4]
    inserterHover := [5, 7] }

/-- A curated result with every metric `NaN` (used only as a `getD`
default). -/
def emptyPerf : WPPerformanceResults :=
  ⟨.nan, .nan, .nan, .nan, .nan, .nan, .nan, .nan, .nan, .nan, .nan, .nan, .nan⟩

/-- An external executor that always succeeds. -/
def sampleShell : String → ℕ → Except String Unit := fun _ _ => Except.ok ()

/-- A results-file reader that always returns `sampleRaw`. -/
def sampleRead : String → ℕ → Except String WPRawPerformanceResults :=
  fun _ _ => Except.ok sampleRaw

/-- The suite result of running `runTestSuite` against the sample
collaborators. -/
def sampleSuiteOut : WPPerformanceResults :=
  (runTestSuite sampleShell sampleRead "post-editor").toOption.getD emptyPerf

/-- An external executor that fails on its second invocation. -/
def failShell : String → ℕ → Except String Unit :=
  fun _ i => if i = 1 then Except.error "boom" else Except.ok ()

/-- An executor that agrees with `sampleShell` on the three indices the
runner consults and fails beyond them. -/
def sampleShellAlt : String → ℕ → Except String Unit :=
  fun _ i => if 3 ≤ i then Except.error "x" else Except.ok ()

/-! ### Statistical core lemmas -/

theorem jsAdd_num (a b : ℚ) : jsAdd (.num a) (.num b) = .num (a + b) := rfl

theorem foldl_jsAdd_num (l : List ℚ) (a : ℚ) :
    l.foldl (fun x b => jsAdd x (.num b)) (.num a) = .num (a + l.sum) := by
  induction l generalizing a with
  | nil => simp
  | cons b t ih =>
    simp only [List.foldl_cons, jsAdd_num, ih, List.sum_cons]
    rw [add_assoc]

theorem average_nonempty (l : List ℚ) (h : l ≠ []) :
    average l = .num (l.sum / l.length) := by
  have h0 : (l.length : ℚ) ≠ 0 :=
    Nat.cast_ne_zero.mpr (List.length_pos.mpr h).ne'
  simp [average, foldl_jsAdd_num, jsDiv, h0]

theorem foldl_min_le_init (l : List ℚ) : ∀ a : ℚ, l.foldl min a ≤ a := by
  induction l with
  | nil => intro a; simp
  | cons b t ih =>
    intro a
    simpa only [List.foldl_cons] using le_trans (ih (min a b)) (min_le_left a b)

theorem foldl_min_mem (l : List ℚ) : ∀ a : ℚ, l.foldl min a ∈ a :: l := by
  induction l with
  | nil => intro a; simp
  | cons b t ih =>
    intro a
    simp only [List.foldl_cons]
    rcases List.mem_cons.mp (ih (min a b)) with h1 | h2
    · rcases min_choice a b with hc | hc
      · rw [h1, hc]; exact List.mem_cons_self _ _
      · rw [h1, hc]; exact List.mem_cons_of_mem _ (List.mem_cons_self _ _)
    · exact List.mem_cons_of_mem _ (List.mem_cons_of_mem _ h2)

theorem foldl_min_le (l : List ℚ) : ∀ a x : ℚ, x ∈ a :: l → l.foldl min a ≤ x := by
  induction l with
  | nil =>
    intro a x hx
    simp only [List.mem_singleton] at hx
    simp [hx]
  | cons b t ih =>
    intro a x hx
    simp only [List.foldl_cons]
    rcases List.mem_cons.mp hx with h1 | h2
    · rw [h1]; exact le_trans (foldl_min_le_init t (min a b)) (min_le_left a b)
    · rcases List.mem_cons.mp h2 with hb | htl
      · rw [hb]; exact le_trans (foldl_min_le_init t (min a b)) (min_le_right a b)
      · exact ih (min a b) x (List.mem_cons_of_mem _ htl)

theorem foldl_max_ge_init (l : List ℚ) : ∀ a : ℚ, a ≤ l.foldl max a := by
  induction l with
  | nil => intro a; simp
  | cons b t ih =>
    intro a
    simpa only [List.foldl_cons] using le_trans (le_max_left a b) (ih (max a b))

theorem foldl_max_mem (l : List ℚ) : ∀ a : ℚ, l.foldl max a ∈ a :: l := by
  induction l with
  | nil => intro a; simp
  | cons b t ih =>
    intro a
    simp only [List.foldl_cons]
    rcases List.mem_cons.mp (ih (max a b)) with h1 | h2
    · rcases max_choice a b with hc | hc
      · rw [h1, hc]; exact List.mem_cons_self _ _
      · rw [h1, hc]; exact List.mem_cons_of_mem _ (List.mem_cons_self _ _)
    · exact List.mem_cons_of_mem _ (List.mem_cons_of_mem _ h2)

theorem foldl_max_ge (l : List ℚ) : ∀ a x : ℚ, x ∈ a :: l → x ≤ l.foldl max a := by
  induction l with
  | nil =>
    intro a x hx
    simp only [List.mem_singleton] at hx
    simp [hx]
  | cons b t ih =>
    intro a x hx
    simp only [List.foldl_cons]
    rcases List.mem_cons.mp hx with h1 | h2
    · rw [h1]; exact le_trans (le_max_left a b) (foldl_max_ge_init t (max a b))
    · rcases List.mem_cons.mp h2 with hb | htl
      · rw [hb]; exact le_trans (le_max_right a b) (foldl_max_ge_init t (max a b))
      · exact ih (max a b) x (List.mem_cons_of_mem _ htl)

theorem mathMin_spec (l : List ℚ) (h : l ≠ []) :
    ∃ m : ℚ, mathMin l = .num m ∧ m ∈ l ∧ ∀ x ∈ l, m ≤ x := by
  obtain ⟨a, t, rfl⟩ : ∃ a t, l = a :: t := by
    cases l with
    | nil => exact absurd rfl h
    | cons a t => exact ⟨a, t, rfl⟩
  exact ⟨t.foldl min a, rfl, foldl_min_mem t a, fun x hx => foldl_min_le t a x hx⟩

theorem mathMax_spec (l : List ℚ) (h : l ≠ []) :
    ∃ m : ℚ, mathMax l = .num m ∧ m ∈ l ∧ ∀ x ∈ l, x ≤ m := by
  obtain ⟨a, t, rfl⟩ : ∃ a t, l = a :: t := by
    cases l with
    | nil => exact absurd rfl h
    | cons a t => exact ⟨a, t, rfl⟩
  exact ⟨t.foldl max a, rfl, foldl_max_mem t a, fun x hx => foldl_max_ge t a x hx⟩

theorem distCurated_of (seq : List ℚ) (h : seq ≠ []) :
    distCurated seq (average seq) (mathMin seq) (mathMax seq) :=
  ⟨average_nonempty seq h, mathMin_spec seq h, mathMax_spec seq h⟩

/-- C1: for every raw sample whose metric sequences are non-empty,
`curateResults` returns the arithmetic mean of the `load` sequence under
`load`, and for each distribution metric the mean, a least member, and a
greatest member of its raw sequence under the `M`/`minM`/`maxM` keys, each
computed directly from the raw sequence. -/
theorem curateResults_meanMinMax (r : WPRawPerformanceResults)
    (hl : r.load ≠ []) (ht : r.type ≠ []) (hf : r.focus ≠ [])
    (ho : r.inserterOpen ≠ []) (hh : r.inserterHover ≠ []) :
    (curateResults r).load = .num (r.load.sum / r.load.length) ∧
    distCurated r.type (curateResults r).type
      (curateResults r).minType (curateResults r).maxType ∧
    distCurated r.focus (curateResults r).focus
      (curateResults r).minFocus (curateResults r).maxFocus ∧
    distCurated r.inserterOpen (curateResults r).inserterOpen
      (curateResults r).minInserterOpen (curateResults r).maxInserterOpen ∧
    distCurated r.inserterHover (curateResults r).inserterHover
      (curateResults r).minInserterHover (curateResults r).maxInserterHover :=
  ⟨average_nonempty r.load hl, distCurated_of r.type ht, distCurated_of r.focus hf,
   distCurated_of r.inserterOpen ho, distCurated_of r.inserterHover hh⟩

/-- Witness for C1 at a concrete raw sample; its distribution sequence
`[10, 20, 30]` curates to mean 20, min 10, max 30. -/
theorem curateResults_meanMinMax_witness :
    (sampleRaw.load ≠ [] ∧ sampleRaw.type ≠ [] ∧ sampleRaw.focus ≠ [] ∧
      sampleRaw.inserterOpen ≠ [] ∧ sampleRaw.inserterHover ≠ []) ∧
    ((curateResults sampleRaw).load = .num (sampleRaw.load.sum / sampleRaw.load.length) ∧
      distCurated sampleRaw.type (curateResults sampleRaw).type
        (curateResults sampleRaw).minType (curateResults sampleRaw).maxType ∧
      distCurated sampleRaw.focus (curateResults sampleRaw).focus
        (curateResults sampleRaw).minFocus (curateResults sampleRaw).maxFocus ∧
      distCurated sampleRaw.inserterOpen (curateResults sampleRaw).inserterOpen
        (curateResults sampleRaw).minInserterOpen (curateResults sampleRaw).maxInserterOpen ∧
      distCurated sampleRaw.inserterHover (curateResults sampleRaw).inserterHover
        (curateResults sampleRaw).minInserterHover (curateResults sampleRaw).maxInserterHover) ∧
    ((curateResults sampleRaw).type = .num 20 ∧
      (curateResults sampleRaw).minType = .num 10 ∧
      (curateResults sampleRaw).maxType = .num 30) :=
  ⟨⟨by decide, by decide, by decide, by decide, by decide⟩,
   curateResults_meanMinMax sampleRaw (by decide) (by decide) (by decide) (by decide) (by decide),
   by
     show average sampleRaw.type = JSNum.num 20
     rw [average_nonempty sampleRaw.type (by decide)]
     norm_num [sampleRaw, List.sum_cons, List.sum_nil],
   by
     show mathMin sampleRaw.type = JSNum.num 10
     norm_num [sampleRaw, mathMin, List.foldl, min_def],
   by
     show mathMax sampleRaw.type = JSNum.num 30
     norm_num [sampleRaw, mathMax, List.foldl, max_def]⟩

/-- C10: `curateResults` is total; on an empty metric sequence the mean is
`NaN` (`0/0`), and for an empty distribution sequence the minimum is
`+Infinity` and the maximum `-Infinity` (`Math.min`/`Math.max` of no
arguments), flowing onward instead of aborting. -/
theorem curateResults_empty_total (r : WPRawPerformanceResults) :
    (r.load = [] → (curateResults r).load = .nan) ∧
    (r.type = [] → (curateResults r).type = .nan ∧
      (curateResults r).minType = .posInf ∧ (curateResults r).maxType = .negInf) ∧
    (r.focus = [] → (curateResults r).focus = .nan ∧
      (curateResults r).minFocus = .posInf ∧ (curateResults r).maxFocus = .negInf) ∧
    (r.inserterOpen = [] → (curateResults r).inserterOpen = .nan ∧
      (curateResults r).minInserterOpen = .posInf ∧
      (curateResults r).maxInserterOpen = .negInf) ∧
    (r.inserterHover = [] → (curateResults r).inserterHover = .nan ∧
      (curateResults r).minInserterHover = .posInf ∧
      (curateResults r).maxInserterHover = .negInf) := by
  refine ⟨fun h => ?_, fun h => ⟨?_, ?_, ?_⟩, fun h => ⟨?_, ?_, ?_⟩,
    fun h => ⟨?_, ?_, ?_⟩, fun h => ⟨?_, ?_, ?_⟩⟩
  · show average r.load = .nan
    rw [h]; decide
  · show average r.type = .nan
    rw [h]; decide
  · show mathMin r.type = .posInf
    rw [h]; decide
  · show mathMax r.type = .negInf
    rw [h]; decide
  · show average r.focus = .nan
    rw [h]; decide
  · show mathMin r.focus = .posInf
    rw [h]; decide
  · show mathMax r.focus = .negInf
    rw [h]; decide
  · show average r.inserterOpen = .nan
    rw [h]; decide
  · show mathMin r.inserterOpen = .posInf
    rw [h]; decide
  · show mathMax r.inserterOpen = .negInf
    rw [h]; decide
  · show average r.inserterHover = .nan
    rw [h]; decide
  · show mathMin r.inserterHover = .posInf
    rw [h]; decide
  · show mathMax r.inserterHover = .negInf
    rw [h]; decide

/-- Witness for C10 at the all-empty raw sample. -/
theorem curateResults_empty_total_witness :
    (curateResults ⟨[], [], [], [], []⟩).load = .nan ∧
    (curateResults ⟨[], [], [], [], []⟩).type = .nan ∧
    (curateResults ⟨[], [], [], [], []⟩).minType = .posInf ∧
    (curateResults ⟨[], [], [], [], []⟩).maxType = .negInf ∧
    (curateResults ⟨[], [], [], [], []⟩).minFocus = .posInf ∧
    (curateResults ⟨[], [], [], [], []⟩).maxInserterHover = .negInf := by
  have h := curateResults_empty_total ⟨[], [], [], [], []⟩
  exact ⟨h.1 rfl, (h.2.1 rfl).1, (h.2.1 rfl).2.1, (h.2.1 rfl).2.2,
    (h.2.2.1 rfl).2.1, (h.2.2.2.2 rfl).2.2⟩

/-! ### The JavaScript numeric sort on finite values -/

theorem jsCmp_num (a b : ℚ) :
    jsCmp (.num a) (.num b) =
      if a < b then Ordering.lt else if b < a then Ordering.gt else Ordering.eq := by
  have hs : jsSub (.num a) (.num b) = .num (a - b) := by
    simp [jsSub, jsNeg, jsAdd, sub_eq_add_neg]
  simp only [jsCmp, hs]
  by_cases h1 : a < b
  · simp [sub_neg.mpr h1, h1]
  · by_cases h2 : b < a
    · have hn : ¬a - b < 0 := by rw [sub_neg]; exact h1
      simp [hn, sub_pos.mpr h2, h1, h2]
    · have hab : a = b := le_antisymm (not_lt.mp h2) (not_lt.mp h1)
      simp [hab, h2]

theorem jsSortInsert_map (a : ℚ) (m : List ℚ) :
    jsSortInsert (.num a) (m.map JSNum.num) = (qInsert a m).map JSNum.num := by
  induction m with
  | nil => rfl
  | cons b t ih =>
    simp only [List.map_cons, jsSortInsert, jsCmp_num, qInsert]
    by_cases h : a < b
    · simp [h]
    · by_cases h2 : b < a <;> simp [h, h2, ih]

theorem jsSortAsc_map (l : List ℚ) :
    jsSortAsc (l.map JSNum.num) = (qSort l).map JSNum.num := by
  induction l with
  | nil => rfl
  | cons a t ih =>
    simp only [jsSortAsc, qSort, List.map_cons, List.foldr_cons] at *
    rw [ih, jsSortInsert_map]

theorem qInsert_perm (a : ℚ) (m : List ℚ) : (qInsert a m).Perm (a :: m) := by
  induction m with
  | nil => exact List.Perm.refl _
  | cons b t ih =>
    simp only [qInsert]
    by_cases h : a < b
    · rw [if_pos h]
    · rw [if_neg h]
      exact (List.Perm.cons b ih).trans (List.Perm.swap a b t)

theorem qSort_perm (l : List ℚ) : (qSort l).Perm l := by
  induction l with
  | nil => exact List.Perm.refl _
  | cons a t ih =>
    simp only [qSort, List.foldr_cons]
    exact (qInsert_perm a (t.foldr qInsert [])).trans (List.Perm.cons a ih)

theorem qInsert_sorted (a : ℚ) {m : List ℚ} (h : m.Sorted (· ≤ ·)) :
    (qInsert a m).Sorted (· ≤ ·) := by
  induction m with
  | nil => simp [qInsert]
  | cons b t ih =>
    rw [List.sorted_cons] at h
    obtain ⟨hb, ht⟩ := h
    simp only [qInsert]
    by_cases hab : a < b
    · rw [if_pos hab, List.sorted_cons]
      refine ⟨?_, List.sorted_cons.mpr ⟨hb, ht⟩⟩
      intro x hx
      rcases List.mem_cons.mp hx with h1 | h2
      · rw [h1]; exact le_of_lt hab
      · exact le_of_lt (lt_of_lt_of_le hab (hb x h2))
    · rw [if_neg hab, List.sorted_cons]
      refine ⟨?_, ih ht⟩
      intro x hx
      rcases List.mem_cons.mp ((qInsert_perm a t).mem_iff.mp hx) with h1 | h2
      · rw [h1]; exact not_lt.mp hab
      · exact hb x h2

theorem qSort_sorted (l : List ℚ) : (qSort l).Sorted (· ≤ ·) := by
  induction l with
  | nil => exact List.sorted_nil
  | cons a t ih => exact qInsert_sorted a ih

theorem getD_map_num (s : List ℚ) (i : ℕ) (h : i < s.length) :
    (s.map JSNum.num).getD i .nan = .num (s.getD i 0) := by
  rw [List.getD_eq_getElem?_getD, List.getD_eq_getElem?_getD, List.getElem?_map,
    List.getElem?_eq_getElem h]
  rfl

/-- C2: for every non-empty list of finite numbers, `median` returns the
exact middle element of the ascending sort when the length is odd, and the
average of the two middle elements when the length is even (`s` being the
sorted reordering). -/
theorem median_sorted_middle (l s : List ℚ) (hne : l ≠ [])
    (hp : l.Perm s) (hs : s.Sorted (· ≤ ·)) :
    median (l.map JSNum.num) =
      (if l.length % 2 = 1 then JSNum.num (s.getD (l.length / 2) 0)
       else JSNum.num ((s.getD (l.length / 2 - 1) 0 + s.getD (l.length / 2) 0) / 2)) := by
  have hqs : qSort l = s :=
    List.eq_of_perm_of_sorted ((qSort_perm l).trans hp) (qSort_sorted l) hs
  have hlen : s.length = l.length := hp.length_eq.symm
  have hpos : 0 < l.length := List.length_pos.mpr hne
  have hmid : l.length / 2 < s.length := by
    rw [hlen]; exact Nat.div_lt_self hpos one_lt_two
  simp only [median, jsSortAsc_map, hqs, List.length_map]
  rcases Nat.mod_two_eq_zero_or_one l.length with he | ho
  · have h2 : 2 ≤ l.length := by omega
    have hmid1 : l.length / 2 - 1 < s.length := lt_of_le_of_lt (Nat.sub_le _ _) hmid
    rw [if_neg (by omega : ¬l.length % 2 ≠ 0), if_neg (by omega : ¬l.length % 2 = 1),
      getD_map_num s _ hmid1, getD_map_num s _ hmid]
    norm_num [jsAdd, jsDiv]
  · rw [if_pos (by omega : l.length % 2 ≠ 0), if_pos ho, getD_map_num s _ hmid]

/-- Witness for C2: `[5, 1, 3]` has median 3 (the middle of the ascending
sort, not an average), and `[4, 6]` has median 5 (the average of the two
middle values). -/
theorem median_sorted_middle_witness :
    (([5, 1, 3] : List ℚ) ≠ [] ∧ ([5, 1, 3] : List ℚ).Perm [1, 3, 5] ∧
      ([1, 3, 5] : List ℚ).Sorted (· ≤ ·) ∧
      ([4, 6] : List ℚ) ≠ [] ∧ ([4, 6] : List ℚ).Perm [4, 6] ∧
      ([4, 6] : List ℚ).Sorted (· ≤ ·)) ∧
    (median (([5, 1, 3] : List ℚ).map JSNum.num) =
      (if ([5, 1, 3] : List ℚ).length % 2 = 1 then
        JSNum.num (([1, 3, 5] : List ℚ).getD (([5, 1, 3] : List ℚ).length / 2) 0)
       else
        JSNum.num ((([1, 3, 5] : List ℚ).getD (([5, 1, 3] : List ℚ).length / 2 - 1) 0 +
          ([1, 3, 5] : List ℚ).getD (([5, 1, 3] : List ℚ).length / 2) 0) / 2))) ∧
    (median (([4, 6] : List ℚ).map JSNum.num) =
      (if ([4, 6] : List ℚ).length % 2 = 1 then
        JSNum.num (([4, 6] : List ℚ).getD (([4, 6] : List ℚ).length / 2) 0)
       else
        JSNum.num ((([4, 6] : List ℚ).getD (([4, 6] : List ℚ).length / 2 - 1) 0 +
          ([4, 6] : List ℚ).getD (([4, 6] : List ℚ).length / 2) 0) / 2))) ∧
    median [JSNum.num 5, JSNum.num 1, JSNum.num 3] = .num 3 ∧
    median [JSNum.num 4, JSNum.num 6] = .num 5 :=
  ⟨⟨by decide, by decide, by decide, by decide, by decide, by decide⟩,
   median_sorted_middle [5, 1, 3] [1, 3, 5] (by decide) (by decide) (by decide),
   median_sorted_middle [4, 6] [4, 6] (by decide) (by decide) (by decide),
   by norm_num [median, jsSortAsc, jsSortInsert, jsCmp, jsSub, jsNeg, jsAdd, jsDiv, List.getD],
   by norm_num [median, jsSortAsc, jsSortInsert, jsCmp, jsSub, jsNeg, jsAdd, jsDiv, List.getD]⟩

/-! ### Rounding -/

theorem getMetric_mapMetrics (f : JSNum → JSNum) (r : WPPerformanceResults) (k : MetricKey) :
    getMetric (mapMetrics f r) k = f (getMetric r k) := by
  cases k <;> rfl

/-- C4: `formatTime` rounds a finite number to 2 decimal places, to the
nearest multiple of 1/100 with exact halves rounding up (the returned value
is `n/100` for the unique integer `n` with `n - 1/2 ≤ 100·x < n + 1/2`),
and every value of a suite result returned by `runTestSuite` has passed
through `formatTime`. -/
theorem formatTime_round2 :
    (∀ x : ℚ, ∃ n : ℤ, formatTime (.num x) = .num ((n : ℚ) / 100) ∧
      (n : ℚ) - 1/2 ≤ x * 100 ∧ x * 100 < (n : ℚ) + 1/2) ∧
    (∀ shell readF testSuite out,
      runTestSuite shell readF testSuite = Except.ok out →
      ∀ k : MetricKey, ∃ y, getMetric out k = formatTime y) := by
  constructor
  · intro x
    refine ⟨⌊x * 100 + 1/2⌋, ?_, ?_, ?_⟩
    · show jsDiv (jsRound (jsMul (.num x) (.num 100))) (.num 100) = _
      norm_num [jsMul, jsRound, jsDiv]
    · have := Int.floor_le (x * 100 + 1/2); linarith
    · have := Int.lt_floor_add_one (x * 100 + 1/2); linarith
  · intro shell readF testSuite out h k
    cases hr : runRepeats shell readF testSuite 3 with
    | error e => simp [runTestSuite, hr] at h
    | ok results =>
      simp only [runTestSuite, hr, Except.ok.injEq] at h
      rw [← h]
      exact ⟨_, getMetric_mapMetrics formatTime _ k⟩

/-- Witness for C4: `12.3456` formats to `12.35`, and the sample suite run
returns only `formatTime`-rounded values. -/
theorem formatTime_round2_witness :
    (∃ n : ℤ, formatTime (.num (123456/10000)) = .num ((n : ℚ) / 100) ∧
      (n : ℚ) - 1/2 ≤ (123456/10000 : ℚ) * 100 ∧
      (123456/10000 : ℚ) * 100 < (n : ℚ) + 1/2) ∧
    formatTime (.num (123456/10000)) = .num (1235/100) ∧
    runTestSuite sampleShell sampleRead "post-editor" = Except.ok sampleSuiteOut ∧
    (∃ y, getMetric sampleSuiteOut MetricKey.load = formatTime y) :=
  ⟨formatTime_round2.1 (123456/10000),
   by norm_num [formatTime, jsMul, jsRound, jsDiv],
   by simp [runTestSuite, runRepeats, sampleShell, sampleRead, sampleSuiteOut, Except.toOption],
   formatTime_round2.2 sampleShell sampleRead "post-editor" sampleSuiteOut
     (by simp [runTestSuite, runRepeats, sampleShell, sampleRead, sampleSuiteOut, Except.toOption])
     MetricKey.load⟩

/-! ### The suite runner -/

theorem runRepeats_ok_inv (shell : String → ℕ → Except String Unit)
    (readF : String → ℕ → Except String WPRawPerformanceResults) (ts : String) :
    ∀ n results, runRepeats shell readF ts n = Except.ok results →
      ∀ i, i < n → shell ts i = Except.ok () ∧ ∃ raw, readF ts i = Except.ok raw := by
  intro n
  induction n with
  | zero => intro results _ i hi; omega
  | succ n ih =>
    intro results h i hi
    rw [runRepeats] at h
    cases hr : runRepeats shell readF ts n with
    | error e => rw [hr] at h; exact absurd h (by simp)
    | ok rs =>
      rw [hr] at h
      cases hsh : shell ts n with
      | error e => rw [hsh] at h; exact absurd h (by simp)
      | ok u =>
        rw [hsh] at h
        cases hrd : readF ts n with
        | error e => rw [hrd] at h; exact absurd h (by simp)
        | ok raw =>
          rcases Nat.lt_succ_iff_lt_or_eq.mp hi with hlt | rfl
          · exact ih rs hr i hlt
          · exact ⟨by rw [hsh], raw, hrd⟩

theorem runRepeats_congr (shell₁ shell₂ : String → ℕ → Except String Unit)
    (readF₁ readF₂ : String → ℕ → Except String WPRawPerformanceResults) (ts : String) :
    ∀ n, (∀ i, i < n → shell₁ ts i = shell₂ ts i ∧ readF₁ ts i = readF₂ ts i) →
      runRepeats shell₁ readF₁ ts n = runRepeats shell₂ readF₂ ts n := by
  intro n
  induction n with
  | zero => intro _; rfl
  | succ n ih =>
    intro h
    rw [runRepeats, runRepeats, ih (fun i hi => h i (Nat.lt_succ_of_lt hi)),
      (h n (Nat.lt_succ_self n)).1, (h n (Nat.lt_succ_self n)).2]

/-- C3: for every suite name, `runTestSuite` consults the external executor
and results file exactly at iterations 0, 1, 2 (its outcome depends on
nothing else); when all three runs succeed it returns, at every one of the
13 metric keys, the `formatTime` 2-decimal rounding of the median of the 3
curated values at that key; and if any of the 3 executor runs or file reads
fails, the whole suite run fails with no partial result. -/
theorem runTestSuite_three_medians :
    (∀ shell readF testSuite r0 r1 r2,
      shell testSuite 0 = Except.ok () → shell testSuite 1 = Except.ok () →
      shell testSuite 2 = Except.ok () →
      readF testSuite 0 = Except.ok r0 → readF testSuite 1 = Except.ok r1 →
      readF testSuite 2 = Except.ok r2 →
      ∃ out, runTestSuite shell readF testSuite = Except.ok out ∧
        ∀ k : MetricKey, getMetric out k =
          formatTime (median [getMetric (curateResults r0) k,
            getMetric (curateResults r1) k, getMetric (curateResults r2) k])) ∧
    (∀ shell readF testSuite,
      (∃ i, i < 3 ∧ ((∃ e, shell testSuite i = Except.error e) ∨
        (∃ e, readF testSuite i = Except.error e))) →
      ∃ e, runTestSuite shell readF testSuite = Except.error e) ∧
    (∀ shell₁ readF₁ shell₂ readF₂ testSuite,
      (∀ i, i < 3 → shell₁ testSuite i = shell₂ testSuite i ∧
        readF₁ testSuite i = readF₂ testSuite i) →
      runTestSuite shell₁ readF₁ testSuite = runTestSuite shell₂ readF₂ testSuite) := by
  refine ⟨?_, ?_, ?_⟩
  · intro shell readF testSuite r0 r1 r2 hs0 hs1 hs2 hr0 hr1 hr2
    have hrep : runRepeats shell readF testSuite 3 =
        Except.ok [curateResults r0, curateResults r1, curateResults r2] := by
      simp [runRepeats, hs0, hs1, hs2, hr0, hr1, hr2]
    simp only [runTestSuite, hrep]
    exact ⟨_, rfl, fun k => by cases k <;> rfl⟩
  · intro shell readF testSuite hbad
    cases hres : runTestSuite shell readF testSuite with
    | error e => exact ⟨e, rfl⟩
    | ok out =>
      exfalso
      rw [runTestSuite] at hres
      cases hr : runRepeats shell readF testSuite 3 with
      | error e => rw [hr] at hres; exact absurd hres (by simp)
      | ok results =>
        obtain ⟨i, hi, hfail⟩ := hbad
        have hok := runRepeats_ok_inv shell readF testSuite 3 results hr i hi
        rcases hfail with ⟨e, he⟩ | ⟨e, he⟩
        · rw [hok.1] at he; exact absurd he (by simp)
        · obtain ⟨raw, hraw⟩ := hok.2
          rw [hraw] at he; exact absurd he (by simp)
  · intro shell₁ readF₁ shell₂ readF₂ testSuite h
    rw [runTestSuite, runTestSuite, runRepeats_congr shell₁ shell₂ readF₁ readF₂ testSuite 3 h]

/-- Witness for C3: the sample collaborators succeed and yield the per-key
formatted medians; a failure at the second iteration fails the whole run;
and the outcome ignores the collaborators beyond index 2. -/
theorem runTestSuite_three_medians_witness :
    (∃ out, runTestSuite sampleShell sampleRead "post-editor" = Except.ok out ∧
      ∀ k : MetricKey, getMetric out k =
        formatTime (median [getMetric (curateResults sampleRaw) k,
          getMetric (curateResults sampleRaw) k, getMetric (curateResults sampleRaw) k])) ∧
    (∃ e, runTestSuite failShell sampleRead "post-editor" = Except.error e) ∧
    runTestSuite sampleShell sampleRead "post-editor" =
      runTestSuite sampleShellAlt sampleRead "post-editor" :=
  ⟨runTestSuite_three_medians.1 sampleShell sampleRead "post-editor"
      sampleRaw sampleRaw sampleRaw rfl rfl rfl rfl rfl rfl,
   runTestSuite_three_medians.2.1 failShell sampleRead "post-editor"
      ⟨1, by omega, Or.inl ⟨"boom", rfl⟩⟩,
   runTestSuite_three_medians.2.2 sampleShell sampleRead sampleShellAlt sampleRead "post-editor"
      (fun i hi => ⟨by simp [sampleShell, sampleShellAlt, Nat.not_le.mpr hi], rfl⟩)⟩

/-! ### Association-list and object-merge lemmas -/

theorem alookup_append {K V : Type} [DecidableEq K] (k : K) (xs ys : List (K × V)) :
    alookup k (xs ++ ys) = (alookup k xs).or (alookup k ys) := by
  induction xs with
  | nil => simp [alookup]
  | cons p ps ih =>
    by_cases h : p.1 = k
    · simp [alookup, h]
    · simp [alookup, h, ih]

theorem alookup_map_replace {K V : Type} [DecidableEq K] (m : List (K × V)) (k : K) (v : V)
    (h : (alookup k m).isSome) :
    alookup k (m.map (fun p => if p.1 = k then (k, v) else p)) = some v := by
  induction m with
  | nil => simp [alookup] at h
  | cons p ps ih =>
    by_cases hp : p.1 = k
    · simp [alookup, hp]
    · simp only [alookup, if_neg hp, Option.isSome] at h
      simp only [List.map_cons, if_neg hp, alookup, if_neg hp]
      exact ih h

theorem alookup_map_replace_ne {K V : Type} [DecidableEq K] (m : List (K × V)) (k k' : K)
    (v : V) (hne : k' ≠ k) :
    alookup k' (m.map (fun p => if p.1 = k then (k, v) else p)) = alookup k' m := by
  induction m with
  | nil => rfl
  | cons p ps ih =>
    by_cases hp : p.1 = k
    · have h1 : k ≠ k' := fun hh => hne hh.symm
      have h2 : p.1 ≠ k' := by rw [hp]; exact h1
      simp [alookup, hp, h1, h2, ih]
    · have hhead : (if p.1 = k then (k, v) else p) = p := if_neg hp
      by_cases hk : p.1 = k'
      · rw [List.map_cons, hhead]
        simp [alookup, hk]
      · rw [List.map_cons, hhead]
        simp [alookup, hk, ih]

theorem alookup_objSet_self {K V : Type} [DecidableEq K] (m : List (K × V)) (k : K) (v : V) :
    alookup k (objSet m k v) = some v := by
  unfold objSet
  by_cases h : (alookup k m).isSome
  · rw [if_pos h]; exact alookup_map_replace m k v h
  · rw [if_neg h, alookup_append, Option.not_isSome_iff_eq_none.mp h]
    simp [alookup]

theorem alookup_objSet_ne {K V : Type} [DecidableEq K] (m : List (K × V)) (k k' : K) (v : V)
    (hne : k' ≠ k) :
    alookup k' (objSet m k v) = alookup k' m := by
  unfold objSet
  by_cases h : (alookup k m).isSome
  · rw [if_pos h]; exact alookup_map_replace_ne m k k' v hne
  · rw [if_neg h, alookup_append]
    have h1 : k ≠ k' := fun hh => hne hh.symm
    cases hk : alookup k' m with
    | some w => simp
    | none => simp [alookup, h1]

theorem alookup_map_of_not_mem {V : Type} (g : String → V) (d : List String) (b : String)
    (hb : b ∉ d) :
    alookup b (d.map (fun x => (x, g x))) = none := by
  induction d with
  | nil => rfl
  | cons x t ih =>
    have hx : x ≠ b := fun h => hb (h ▸ List.mem_cons_self x t)
    have ht : b ∉ t := fun h => hb (List.mem_cons_of_mem x h)
    simp [alookup, hx, ih ht]

theorem alookup_map_of_mem {V : Type} (g : String → V) (d : List String) (b : String)
    (hb : b ∈ d) (hd : d.Nodup) :
    alookup b (d.map (fun x => (x, g x))) = some (g b) := by
  induction d with
  | nil => exact absurd hb (List.not_mem_nil b)
  | cons x t ih =>
    rw [List.nodup_cons] at hd
    by_cases hx : x = b
    · subst hx; simp [alookup]
    · rcases List.mem_cons.mp hb with h | h
      · exact absurd h.symm hx
      · simp [alookup, hx, ih h hd.2]

theorem lookup2_insertResult_ne (T : ResultsTable) (ts b ts' b' : String)
    (v : WPPerformanceResults) (h : ¬(ts = ts' ∧ b = b')) :
    lookup2 (insertResult T ts' b' v) ts b = lookup2 T ts b := by
  unfold lookup2 insertResult
  by_cases hts : ts = ts'
  · subst hts
    have hb : b ≠ b' := fun hb => h ⟨rfl, hb⟩
    rw [alookup_objSet_self]
    have hb' : b' ≠ b := fun hh => hb hh.symm
    cases hT : alookup ts T with
    | none => simp [alookup_objSet_ne _ _ _ _ hb, alookup, hb']
    | some inner => simp [alookup_objSet_ne _ _ _ _ hb]
  · rw [alookup_objSet_ne _ _ _ _ hts]

/-! ### The orchestration branch loop -/

theorem pe_ne_se : ("post-editor" : String) ≠ "site-editor" := by decide

theorem runSuitesLoop_sample (runSuite : String → String → Except String WPPerformanceResults)
    (f : String → String → WPPerformanceResults)
    (hrs : ∀ ts b, runSuite ts b = Except.ok (f ts b)) (b : String) (T : ResultsTable) :
    runSuitesLoop runSuite b testSuites T =
      ([.runSuiteCmd "post-editor" b, .runSuiteCmd "site-editor" b],
       insertResult (insertResult T "post-editor" b (f "post-editor" b))
         "site-editor" b (f "site-editor" b),
       none) := by
  simp [runSuitesLoop, testSuites, hrs]

theorem insert_two_tbl (f : String → String → WPPerformanceResults) (done : List String)
    (b : String) (hb : b ∉ done) :
    insertResult (insertResult
        (testSuites.map (fun ts => (ts, done.map (fun x => (x, f ts x)))))
        "post-editor" b (f "post-editor" b))
      "site-editor" b (f "site-editor" b) =
      testSuites.map (fun ts => (ts, (done ++ [b]).map (fun x => (x, f ts x)))) := by
  have hpe : ∀ g : String → WPPerformanceResults,
      alookup b (done.map (fun x => (x, g x))) = none :=
    fun g => alookup_map_of_not_mem g done b hb
  simp only [testSuites, List.map_cons, List.map_nil, insertResult, objSet, alookup,
    pe_ne_se, pe_ne_se.symm, if_pos, if_neg, List.map_append]
  simp [alookup, pe_ne_se, pe_ne_se.symm, hpe, List.map_append]

theorem insert_two_empty (f : String → String → WPPerformanceResults) (b : String) :
    insertResult (insertResult ([] : ResultsTable)
        "post-editor" b (f "post-editor" b))
      "site-editor" b (f "site-editor" b) =
      testSuites.map (fun ts => (ts, [b].map (fun x => (x, f ts x)))) := by
  simp [insertResult, objSet, alookup, testSuites, pe_ne_se, pe_ne_se.symm]

theorem branchLoop_ok (setUp : String → Except String Unit)
    (runSuite : String → String → Except String WPPerformanceResults)
    (f : String → String → WPPerformanceResults)
    (hrs : ∀ ts b, runSuite ts b = Except.ok (f ts b)) :
    ∀ (bs done : List String), (∀ b ∈ bs, setUp b = Except.ok ()) →
      (done ++ bs).Nodup →
      ∃ evs, branchLoop setUp runSuite bs
          (testSuites.map (fun ts => (ts, done.map (fun x => (x, f ts x))))) =
        (evs, testSuites.map (fun ts => (ts, (done ++ bs).map (fun x => (x, f ts x)))), none) := by
  intro bs
  induction bs with
  | nil => intro done _ _; exact ⟨[], by simp [branchLoop]⟩
  | cons b rest ih =>
    intro done hsu hnd
    have hb : b ∉ done := by
      intro hmem
      exact (List.nodup_append.mp hnd).2.2 hmem (List.mem_cons_self b rest)
    have hnd' : ((done ++ [b]) ++ rest).Nodup := by
      rw [List.append_assoc]; simpa using hnd
    obtain ⟨evs, hevs⟩ := ih (done ++ [b]) (fun x hx => hsu x (List.mem_cons_of_mem b hx)) hnd'
    refine ⟨.setUpGit b :: .runSuiteCmd "post-editor" b :: .runSuiteCmd "site-editor" b :: evs, ?_⟩
    simp only [branchLoop, hsu b (List.mem_cons_self b rest),
      runSuitesLoop_sample runSuite f hrs b]
    rw [insert_two_tbl f done b hb, hevs]
    simp [List.append_assoc]

/-- C5: with distinct branch names (an empty input defaulting to `trunk`),
after a fully successful run the accumulated table has exactly the suites
`post-editor`, `site-editor` as keys in that order, each mapping to exactly
the input branches in input order with the result computed for that pair;
and merging a later (suite, branch) result never changes an already
recorded entry. -/
theorem runPerformanceTests_table (branches : List String)
    (setUp : String → Except String Unit)
    (runSuite : String → String → Except String WPPerformanceResults)
    (f : String → String → WPPerformanceResults)
    (hnd : branches.Nodup)
    (hsu : ∀ b, setUp b = Except.ok ())
    (hrs : ∀ ts b, runSuite ts b = Except.ok (f ts b)) :
    ((runPerformanceTests setUp runSuite branches).2.1).map Prod.fst = testSuites ∧
    (∀ ts ∈ testSuites,
      ∃ inner, alookup ts (runPerformanceTests setUp runSuite branches).2.1 = some inner ∧
        inner.map Prod.fst = normalizeBranches branches ∧
        ∀ b ∈ normalizeBranches branches, alookup b inner = some (f ts b)) ∧
    (∀ (T : ResultsTable) ts b v ts' b', ¬(ts = ts' ∧ b = b') →
      lookup2 (insertResult T ts' b' v) ts b = lookup2 T ts b) ∧
    (branches = [] → normalizeBranches branches = ["trunk"]) := by
  have hndN : (normalizeBranches branches).Nodup := by
    unfold normalizeBranches
    by_cases h : branches.length = 0
    · rw [if_pos h]; simp
    · rw [if_neg h]; exact hnd
  obtain ⟨b0, rest, hsplit⟩ : ∃ b0 rest, normalizeBranches branches = b0 :: rest := by
    unfold normalizeBranches
    by_cases h : branches.length = 0
    · rw [if_pos h]; exact ⟨"trunk", [], rfl⟩
    · rw [if_neg h]
      cases branches with
      | nil => simp at h
      | cons x xs => exact ⟨x, xs, rfl⟩
  have hfinal : ∃ evs, branchLoop setUp runSuite (normalizeBranches branches) [] =
      (evs, testSuites.map
        (fun ts => (ts, (normalizeBranches branches).map (fun x => (x, f ts x)))), none) := by
    rw [hsplit] at hndN ⊢
    obtain ⟨evs, hevs⟩ := branchLoop_ok setUp runSuite f hrs rest [b0]
      (fun x _ => hsu x) (by simpa using hndN)
    refine ⟨.setUpGit b0 :: .runSuiteCmd "post-editor" b0 :: .runSuiteCmd "site-editor" b0 :: evs, ?_⟩
    simp only [branchLoop, hsu b0, runSuitesLoop_sample runSuite f hrs b0]
    rw [insert_two_empty f b0, hevs]
    simp
  obtain ⟨evs, hevs⟩ := hfinal
  have hrun : runPerformanceTests setUp runSuite branches =
      (evs ++ [.stopEnv], testSuites.map
        (fun ts => (ts, (normalizeBranches branches).map (fun x => (x, f ts x)))), none) := by
    simp only [runPerformanceTests]
    rw [hevs]
  refine ⟨?_, ?_, fun T ts b v ts' b' h => lookup2_insertResult_ne T ts b ts' b' v h,
    fun h => by simp [normalizeBranches, h]⟩
  · rw [hrun]
    simp [testSuites]
  · intro ts hts
    rw [hrun]
    have hts' : ts = "post-editor" ∨ ts = "site-editor" := by
      simpa [testSuites] using hts
    rcases hts' with rfl | rfl
    · refine ⟨_, ?_, by simp [Function.comp_def], fun b hb => alookup_map_of_mem _ _ b hb hndN⟩
      simp [testSuites, alookup]
    · refine ⟨_, ?_, by simp [Function.comp_def], fun b hb => alookup_map_of_mem _ _ b hb hndN⟩
      simp [testSuites, alookup, pe_ne_se]

/-- Witness for C5 at branches `["v1", "v2"]` with always-succeeding
collaborators. -/
theorem runPerformanceTests_table_witness :
    ((runPerformanceTests (fun _ => Except.ok ())
        (fun _ _ => Except.ok emptyPerf) ["v1", "v2"]).2.1).map Prod.fst = testSuites ∧
    (∀ ts ∈ testSuites,
      ∃ inner, alookup ts (runPerformanceTests (fun _ => Except.ok ())
          (fun _ _ => Except.ok emptyPerf) ["v1", "v2"]).2.1 = some inner ∧
        inner.map Prod.fst = normalizeBranches ["v1", "v2"] ∧
        ∀ b ∈ normalizeBranches ["v1", "v2"],
          alookup b inner = some ((fun _ _ => emptyPerf) ts b)) ∧
    (∀ (T : ResultsTable) ts b v ts' b', ¬(ts = ts' ∧ b = b') →
      lookup2 (insertResult T ts' b' v) ts b = lookup2 T ts b) ∧
    ((["v1", "v2"] : List String) = [] → normalizeBranches ["v1", "v2"] = ["trunk"]) :=
  runPerformanceTests_table ["v1", "v2"] _ _ (fun _ _ => emptyPerf) (by decide)
    (fun _ => rfl) (fun _ _ => rfl)

/-! ### Failure propagation -/

theorem runSuitesLoop_table_preserve
    (runSuite : String → String → Except String WPPerformanceResults) (branch : String) :
    ∀ (suites : List String) (T : ResultsTable) ts b, b ≠ branch →
      lookup2 (runSuitesLoop runSuite branch suites T).2.1 ts b = lookup2 T ts b := by
  intro suites
  induction suites with
  | nil => intro T ts b _; rfl
  | cons s rest ih =>
    intro T ts b hne
    cases h : runSuite s branch with
    | error e => simp [runSuitesLoop, h]
    | ok v =>
      simp only [runSuitesLoop, h]
      rw [ih (insertResult T s branch v) ts b hne,
        lookup2_insertResult_ne T ts b s branch v (fun hc => hne hc.2)]

theorem stopEnv_not_mem_runSuitesLoop
    (runSuite : String → String → Except String WPPerformanceResults) (branch : String) :
    ∀ (suites : List String) (T : ResultsTable),
      OrchEvent.stopEnv ∉ (runSuitesLoop runSuite branch suites T).1 := by
  intro suites
  induction suites with
  | nil => intro T; simp [runSuitesLoop]
  | cons s rest ih =>
    intro T
    cases h : runSuite s branch with
    | error e => simp [runSuitesLoop, h]
    | ok v =>
      simp only [runSuitesLoop, h]
      intro hmem
      rcases List.mem_cons.mp hmem with h1 | h2
      · simp at h1
      · exact ih _ h2

theorem stopEnv_not_mem_branchLoop (setUp : String → Except String Unit)
    (runSuite : String → String → Except String WPPerformanceResults) :
    ∀ (bs : List String) (T : ResultsTable),
      OrchEvent.stopEnv ∉ (branchLoop setUp runSuite bs T).1 := by
  intro bs
  induction bs with
  | nil => intro T; simp [branchLoop]
  | cons b rest ih =>
    intro T
    cases hs : setUp b with
    | error e => simp [branchLoop, hs]
    | ok u =>
      cases hr : (runSuitesLoop runSuite b testSuites T).2.2 with
      | some e =>
        simp only [branchLoop, hs, hr]
        intro hmem
        rcases List.mem_cons.mp hmem with h1 | h2
        · simp at h1
        · exact stopEnv_not_mem_runSuitesLoop runSuite b testSuites T h2
      | none =>
        simp only [branchLoop, hs, hr]
        intro hmem
        rcases List.mem_cons.mp hmem with h1 | h2
        · simp at h1
        · rcases List.mem_append.mp h2 with h3 | h4
          · exact stopEnv_not_mem_runSuitesLoop runSuite b testSuites T h3
          · exact ih _ h4

theorem branchLoop_fail_aux (setUp : String → Except String Unit)
    (runSuite : String → String → Except String WPPerformanceResults)
    (B : String) (e : String) (post : List String)
    (hfail : setUp B = Except.error e) :
    ∀ (pre : List String) (T : ResultsTable), (pre ++ B :: post).Nodup →
      (∀ ts b, (b = B ∨ b ∈ post) → lookup2 T ts b = none) →
      ((branchLoop setUp runSuite (pre ++ B :: post) T).2.2).isSome ∧
      (∀ ts b, (b = B ∨ b ∈ post) →
        lookup2 (branchLoop setUp runSuite (pre ++ B :: post) T).2.1 ts b = none) := by
  intro pre
  induction pre with
  | nil =>
    intro T hnd hT
    simp only [List.nil_append, branchLoop, hfail]
    exact ⟨rfl, hT⟩
  | cons p pre' ih =>
    intro T hnd hT
    rw [List.cons_append] at hnd
    have hnotin : p ∉ pre' ++ B :: post := (List.nodup_cons.mp hnd).1
    have hpB : p ≠ B := by
      intro hpB
      exact hnotin (by rw [hpB]; exact List.mem_append.mpr (Or.inr (List.mem_cons_self B post)))
    have hppost : p ∉ post := by
      intro hp
      exact hnotin (List.mem_append.mpr (Or.inr (List.mem_cons_of_mem B hp)))
    have hbp : ∀ b, (b = B ∨ b ∈ post) → b ≠ p := by
      intro b hb hbp
      rcases hb with rfl | hb
      · exact hpB hbp.symm
      · exact hppost (hbp ▸ hb)
    cases hsp : setUp p with
    | error ep =>
      simp only [List.cons_append, branchLoop, hsp]
      exact ⟨rfl, hT⟩
    | ok u =>
      cases hr : (runSuitesLoop runSuite p testSuites T).2.2 with
      | some e2 =>
        simp only [List.cons_append, branchLoop, hsp, hr]
        refine ⟨rfl, fun ts b hb => ?_⟩
        rw [runSuitesLoop_table_preserve runSuite p testSuites T ts b (hbp b hb)]
        exact hT ts b hb
      | none =>
        simp only [List.cons_append, branchLoop, hsp, hr]
        have hT' : ∀ ts b, (b = B ∨ b ∈ post) →
            lookup2 (runSuitesLoop runSuite p testSuites T).2.1 ts b = none := by
          intro ts b hb
          rw [runSuitesLoop_table_preserve runSuite p testSuites T ts b (hbp b hb)]
          exact hT ts b hb
        exact ih _ (List.nodup_cons.mp hnd).2 hT'

/-- C7: if `setUpGitBranch` fails for a branch `B` of the (normalized)
branch list, the whole run ends in an error, the environment-stop command is
never executed, and no suite result for `B` or for any branch after `B` is
present in the accumulated table. -/
theorem setUpGitBranch_failure_propagation
    (branches pre post : List String) (B : String)
    (setUp : String → Except String Unit)
    (runSuite : String → String → Except String WPPerformanceResults) (e : String)
    (hsplit : normalizeBranches branches = pre ++ B :: post)
    (hnd : (pre ++ B :: post).Nodup)
    (hfail : setUp B = Except.error e) :
    ((runPerformanceTests setUp runSuite branches).2.2).isSome ∧
    OrchEvent.stopEnv ∉ (runPerformanceTests setUp runSuite branches).1 ∧
    (∀ ts b, (b = B ∨ b ∈ post) →
      lookup2 (runPerformanceTests setUp runSuite branches).2.1 ts b = none) := by
  have hT0 : ∀ ts b, (b = B ∨ b ∈ post) → lookup2 ([] : ResultsTable) ts b = none :=
    fun _ _ _ => rfl
  obtain ⟨hsome, htab⟩ :=
    branchLoop_fail_aux setUp runSuite B e post hfail pre [] hnd hT0
  cases he : (branchLoop setUp runSuite (pre ++ B :: post) []).2.2 with
  | none => rw [he] at hsome; exact absurd hsome (by simp)
  | some e' =>
    have hrun : runPerformanceTests setUp runSuite branches =
        ((branchLoop setUp runSuite (pre ++ B :: post) []).1,
         (branchLoop setUp runSuite (pre ++ B :: post) []).2.1, some e') := by
      simp only [runPerformanceTests, hsplit]
      rw [he]
    rw [hrun]
    exact ⟨by simp, stopEnv_not_mem_branchLoop setUp runSuite (pre ++ B :: post) [], htab⟩

/-- Witness for C7: with `setUpGitBranch` failing on the middle branch of
`["ok1", "bad", "after"]`, the run errors, the stop command is absent from
the trace, and no result for `bad` or `after` is recorded. -/
theorem setUpGitBranch_failure_propagation_witness :
    ((runPerformanceTests (fun b => if b = "bad" then Except.error "x" else Except.ok ())
        (fun _ _ => Except.ok emptyPerf) ["ok1", "bad", "after"]).2.2).isSome ∧
    OrchEvent.stopEnv ∉ (runPerformanceTests
        (fun b => if b = "bad" then Except.error "x" else Except.ok ())
        (fun _ _ => Except.ok emptyPerf) ["ok1", "bad", "after"]).1 ∧
    (∀ ts b, (b = "bad" ∨ b ∈ ["after"]) →
      lookup2 (runPerformanceTests
          (fun b => if b = "bad" then Except.error "x" else Except.ok ())
          (fun _ _ => Except.ok emptyPerf) ["ok1", "bad", "after"]).2.1 ts b = none) :=
  setUpGitBranch_failure_propagation ["ok1", "bad", "after"] ["ok1"] ["after"] "bad"
    (fun b => if b = "bad" then Except.error "x" else Except.ok ())
    (fun _ _ => Except.ok emptyPerf) "x" rfl (by decide) rfl

/-- C8 (amended): the environment-stop step runs exactly when the branch
loop completes without error — then exactly once, as the last event; when a
step inside the loop has already failed fatally, the stop step is never
executed. -/
theorem stopEnv_iff_success (setUp : String → Except String Unit)
    (runSuite : String → String → Except String WPPerformanceResults)
    (branches : List String) :
    ((runPerformanceTests setUp runSuite branches).2.2 = none →
      ∃ evs, (runPerformanceTests setUp runSuite branches).1 = evs ++ [OrchEvent.stopEnv] ∧
        OrchEvent.stopEnv ∉ evs) ∧
    (((runPerformanceTests setUp runSuite branches).2.2).isSome →
      OrchEvent.stopEnv ∉ (runPerformanceTests setUp runSuite branches).1) := by
  cases he : (branchLoop setUp runSuite (normalizeBranches branches) []).2.2 with
  | some e =>
    have hrun : runPerformanceTests setUp runSuite branches =
        ((branchLoop setUp runSuite (normalizeBranches branches) []).1,
         (branchLoop setUp runSuite (normalizeBranches branches) []).2.1, some e) := by
      simp only [runPerformanceTests]
      rw [he]
    rw [hrun]
    exact ⟨fun h => absurd h (by simp),
      fun _ => stopEnv_not_mem_branchLoop setUp runSuite _ _⟩
  | none =>
    have hrun : runPerformanceTests setUp runSuite branches =
        ((branchLoop setUp runSuite (normalizeBranches branches) []).1 ++ [OrchEvent.stopEnv],
         (branchLoop setUp runSuite (normalizeBranches branches) []).2.1, none) := by
      simp only [runPerformanceTests]
      rw [he]
    rw [hrun]
    exact ⟨fun _ => ⟨(branchLoop setUp runSuite (normalizeBranches branches) []).1, rfl,
        stopEnv_not_mem_branchLoop setUp runSuite _ _⟩,
      fun h => absurd h (by simp)⟩

/-- Counterexample for C8 as stated: an execution that reaches the branch
loop and fails fatally upstream (branch setup fails) terminates with an
error and the stop step is NOT executed — the stop is not unconditional. -/
theorem stopEnv_unconditional_counterexample :
    ((runPerformanceTests (fun _ => Except.error "boom")
        (fun _ _ => Except.ok emptyPerf) ["trunk"]).2.2).isSome ∧
    OrchEvent.stopEnv ∉ (runPerformanceTests (fun _ => Except.error "boom")
        (fun _ _ => Except.ok emptyPerf) ["trunk"]).1 := by
  constructor
  · rfl
  · simp [runPerformanceTests, normalizeBranches, branchLoop]

/-- Witness for C8's amended theorem: a fully successful run ends with the
stop event exactly once, and a failing run never emits it. -/
theorem stopEnv_iff_success_witness :
    (∃ evs, (runPerformanceTests (fun _ => Except.ok ())
        (fun _ _ => Except.ok emptyPerf) ["trunk"]).1 = evs ++ [OrchEvent.stopEnv] ∧
      OrchEvent.stopEnv ∉ evs) ∧
    OrchEvent.stopEnv ∉ (runPerformanceTests (fun _ => Except.error "boom")
        (fun _ _ => Except.ok emptyPerf) ["trunk"]).1 :=
  ⟨(stopEnv_iff_success (fun _ => Except.ok ()) (fun _ _ => Except.ok emptyPerf) ["trunk"]).1 rfl,
   (stopEnv_iff_success (fun _ => Except.error "boom")
      (fun _ _ => Except.ok emptyPerf) ["trunk"]).2 rfl⟩

/-! ### Version canonicalization -/

theorem takeWhile_digits_append (d r : List Char)
    (hd : ∀ c ∈ d, c.isDigit = true)
    (hr : ∀ c, r.head? = some c → c.isDigit = false) :
    (d ++ r).takeWhile Char.isDigit = d ∧ (d ++ r).dropWhile Char.isDigit = r := by
  induction d with
  | nil =>
    simp only [List.nil_append]
    cases r with
    | nil => exact ⟨rfl, rfl⟩
    | cons c t =>
      have hc := hr c rfl
      exact ⟨by simp [List.takeWhile_cons, hc], by simp [List.dropWhile_cons, hc]⟩
  | cons x d ih =>
    have hx : x.isDigit = true := hd x (List.mem_cons_self _ _)
    obtain ⟨ih1, ih2⟩ := ih (fun c hc => hd c (List.mem_cons_of_mem _ hc))
    exact ⟨by simp [List.takeWhile_cons, hx, ih1],
      by simp [List.dropWhile_cons, hx, ih2]⟩

theorem takeWhile_digits_all (d : List Char) (hd : ∀ c ∈ d, c.isDigit = true) :
    d.takeWhile Char.isDigit = d ∧ d.dropWhile Char.isDigit = [] := by
  have h := takeWhile_digits_append d [] hd (fun c hc => by simp at hc)
  simpa using h

theorem dotZeroAt_false_of_snd (d2 r3 : List Char) (j : ℕ)
    (h : ∀ c2, (d2.drop j ++ r3)[1]? = some c2 → c2 ≠ '0') :
    dotZeroAt d2 r3 j = false := by
  cases h0 : (d2.drop j ++ r3)[0]? with
  | none => simp [dotZeroAt, h0]
  | some c =>
    cases h1 : (d2.drop j ++ r3)[1]? with
    | none => simp [dotZeroAt, h0, h1]
    | some c2 =>
      have hne := h c2 h1
      simp [dotZeroAt, h0, h1, hne]

theorem dotZeroAt_true_of (d2 r3 : List Char) (j : ℕ) (c : Char)
    (h0 : (d2.drop j ++ r3)[0]? = some c) (hc : jsDotChar c = true)
    (h1 : (d2.drop j ++ r3)[1]? = some '0') :
    dotZeroAt d2 r3 j = true := by
  simp [dotZeroAt, h0, h1, hc]

theorem bestJ_none (d2 r3 : List Char) :
    ∀ n, (∀ j, 1 ≤ j → j ≤ n → dotZeroAt d2 r3 j = false) → bestJ d2 r3 n = none := by
  intro n
  induction n with
  | zero => intro _; rfl
  | succ n ih =>
    intro h
    unfold bestJ
    rw [h (n + 1) (by omega) (le_refl _)]
    simp only [Bool.false_eq_true, if_false]
    exact ih (fun j h1 h2 => h j h1 (by omega))

theorem bestJ_of_top (d2 r3 : List Char) (n : ℕ) (hn : n ≠ 0)
    (h : dotZeroAt d2 r3 n = true) : bestJ d2 r3 n = some n := by
  cases n with
  | zero => exact absurd rfl hn
  | succ k =>
    unfold bestJ
    rw [h]
    simp

theorem drop_append_getElem_lt (b r3 : List Char) (j : ℕ) (h : j + 1 < b.length) :
    (b.drop j ++ r3)[1]? = b[j + 1]? := by
  rw [List.getElem?_append_left (by rw [List.length_drop]; omega), List.getElem?_drop]

theorem zipVersionChars_shape (a X : List Char) (ha : a ≠ [])
    (hda : ∀ c ∈ a, c.isDigit = true) :
    zipVersionChars (a ++ '.' :: X) =
      (match bestJ (X.takeWhile Char.isDigit) (X.dropWhile Char.isDigit)
          (X.takeWhile Char.isDigit).length with
       | none => a ++ '.' :: X
       | some j => a ++ '.' :: (X.takeWhile Char.isDigit).take j ++
           ((X.takeWhile Char.isDigit).drop j ++ X.dropWhile Char.isDigit).drop 2) := by
  have hsp := takeWhile_digits_append a ('.' :: X) hda (fun c hc => by
    simp only [List.head?_cons, Option.some.injEq] at hc
    rw [← hc]; decide)
  simp only [zipVersionChars, hsp.1, hsp.2, if_neg ha]

/-- C6 (amended): for version inputs `major.minor` or `major.minor.patch`
written as decimal digit runs, provided the minor part has no `'0'` digit at
index 2 or beyond (true of every minor below 100) and a present patch part
has no leading zero, the written zip version is the input with a trailing
`.0` patch dropped and is otherwise unchanged.  (Outside this set the
unescaped dot of the source regex `/^(\d+\.\d+).0/` can rewrite other
versions, e.g. `4.100` → `4.1`.) -/
theorem zipVersion_canonical (a b : List Char) (ha : a ≠ []) (hb : b ≠ [])
    (hda : ∀ c ∈ a, c.isDigit = true) (hdb : ∀ c ∈ b, c.isDigit = true)
    (hb0 : ∀ i, 2 ≤ i → b[i]? ≠ some '0') :
    zipVersionChars (a ++ '.' :: b) = a ++ '.' :: b ∧
    zipVersionChars (a ++ '.' :: (b ++ ['.', '0'])) = a ++ '.' :: b ∧
    (∀ p, p ≠ [] → (∀ c ∈ p, c.isDigit = true) → p[0]? ≠ some '0' →
      zipVersionChars (a ++ '.' :: (b ++ '.' :: p)) = a ++ '.' :: (b ++ '.' :: p)) := by
  obtain ⟨htb, hdb'⟩ := takeWhile_digits_all b hdb
  refine ⟨?_, ?_, ?_⟩
  · rw [zipVersionChars_shape a b ha hda, htb, hdb']
    have hnone : bestJ b [] b.length = none := by
      apply bestJ_none
      intro j h1 h2
      apply dotZeroAt_false_of_snd
      intro c2 hc2 heq
      subst heq
      rw [List.append_nil, List.getElem?_drop] at hc2
      exact hb0 (j + 1) (by omega) hc2
    rw [hnone]
  · have hsp := takeWhile_digits_append b ['.', '0'] hdb (fun c hc => by
      simp only [List.head?_cons, Option.some.injEq] at hc
      rw [← hc]; decide)
    rw [zipVersionChars_shape a (b ++ ['.', '0']) ha hda, hsp.1, hsp.2]
    have htop : bestJ b ['.', '0'] b.length = some b.length := by
      apply bestJ_of_top b ['.', '0'] b.length (List.length_pos.mpr hb).ne'
      apply dotZeroAt_true_of b ['.', '0'] b.length '.'
      · rw [List.drop_length]; rfl
      · decide
      · rw [List.drop_length]; rfl
    rw [htop]
    simp [List.take_length, List.drop_length]
  · intro p hp hdp hp0
    have hsp := takeWhile_digits_append b ('.' :: p) hdb (fun c hc => by
      simp only [List.head?_cons, Option.some.injEq] at hc
      rw [← hc]; decide)
    rw [zipVersionChars_shape a (b ++ '.' :: p) ha hda, hsp.1, hsp.2]
    have hnone : bestJ b ('.' :: p) b.length = none := by
      apply bestJ_none
      intro j h1 h2
      apply dotZeroAt_false_of_snd
      intro c2 hc2 heq
      subst heq
      rcases Nat.lt_or_ge (j + 1) b.length with hj | hj
      · rw [drop_append_getElem_lt b ('.' :: p) j hj] at hc2
        exact hb0 (j + 1) (by omega) hc2
      · rcases Nat.eq_or_lt_of_le h2 with heqj | hlt
        · rw [heqj, List.drop_length] at hc2
          simp only [List.nil_append, List.getElem?_cons_succ] at hc2
          exact hp0 hc2
        · have hlen1 : (b.drop j).length = 1 := by rw [List.length_drop]; omega
          rw [List.getElem?_append_right (by omega)] at hc2
          rw [hlen1] at hc2
          norm_num at hc2
          exact absurd hc2 (by decide)
    rw [hnone]

/-- Counterexample for C6 as stated: `4.100` is a version with no trailing
`.0` patch level (the spec-side canonicalization leaves it unchanged), yet
the source's regex rewrites it to `4.1` — the unescaped `.` before the `0`
matches the digit `1`. -/
theorem zipVersion_regex_counterexample :
    zipVersion "4.100" = "4.1" ∧ specZipVersion "4.100" = "4.100" ∧
    zipVersion "4.100" ≠ specZipVersion "4.100" := by
  refine ⟨by decide, by decide, by decide⟩

/-- Witness for C6's amended theorem at `5.7` / `5.7.0` / `5.7.2`. -/
theorem zipVersion_canonical_witness :
    (zipVersionChars (['5'] ++ '.' :: ['7']) = ['5'] ++ '.' :: ['7'] ∧
      zipVersionChars (['5'] ++ '.' :: (['7'] ++ ['.', '0'])) = ['5'] ++ '.' :: ['7'] ∧
      (∀ p, p ≠ [] → (∀ c ∈ p, c.isDigit = true) → p[0]? ≠ some '0' →
        zipVersionChars (['5'] ++ '.' :: (['7'] ++ '.' :: p)) =
          ['5'] ++ '.' :: (['7'] ++ '.' :: p))) ∧
    zipVersion "5.7.0" = "5.7" ∧ zipVersion "5.7.2" = "5.7.2" ∧ zipVersion "5.7" = "5.7" :=
  ⟨zipVersion_canonical ['5'] ['7'] (by decide) (by decide) (by decide) (by decide)
      (fun i hi => by
        rw [List.getElem?_eq_none (by simp; omega)]
        simp),
   by decide, by decide, by decide⟩

/-! ### The display inversion and the JSON artifact -/

theorem mem_metricKeys (mk : MetricKey) : mk ∈ metricKeys := by
  cases mk <;> decide

theorem alookup_append_single_ne {K V : Type} [DecidableEq K] (m : List (K × V))
    (k e : K) (v : V) (hne : k ≠ e) :
    alookup k (m ++ [(e, v)]) = alookup k m := by
  rw [alookup_append]
  have hek : ¬e = k := fun h => hne h.symm
  cases hm : alookup k m with
  | some w => rfl
  | none => simp [alookup, hek]

theorem metricFold_lookup (numToString : JSNum → String) (b : String)
    (res : WPPerformanceResults) :
    ∀ (ml : List MetricKey) (acc : List (MetricKey × List (String × String)))
      (mk : MetricKey) (b'' : String), ml.Nodup →
      alookup b'' ((alookup mk (ml.foldl (invertStep numToString b res) acc)).getD []) =
        (if mk ∈ ml ∧ b'' = b ∧ isFiniteJS (getMetric res mk) = true
         then some (numToString (getMetric res mk) ++ " ms")
         else alookup b'' ((alookup mk acc).getD [])) := by
  intro ml
  induction ml with
  | nil =>
    intro acc mk b'' _
    simp
  | cons e rest ih =>
    intro acc mk b'' hnd
    rw [List.nodup_cons] at hnd
    simp only [List.foldl_cons]
    by_cases hmk : mk = e
    · subst hmk
      rw [ih _ mk b'' hnd.2, if_neg (fun hc => hnd.1 hc.1)]
      have hprev : alookup mk (if (alookup mk acc).isSome then acc else acc ++ [(mk, [])]) =
          some ((alookup mk acc).getD []) := by
        cases hl : alookup mk acc with
        | some v => simp [hl]
        | none =>
          simp only [hl, Option.isSome_none, Bool.false_eq_true, if_false]
          rw [alookup_append, hl]
          simp [alookup]
      simp only [invertStep]
      cases hfin : isFiniteJS (getMetric res mk) with
      | false =>
        simp only [hfin, Bool.false_eq_true, if_false]
        rw [hprev]
        simp [hfin]
      | true =>
        simp only [hfin, if_true]
        rw [hprev]
        by_cases hb'' : b'' = b
        · subst hb''
          rw [alookup_objSet_self]
          simp [alookup_objSet_self, List.mem_cons_self, hfin]
        · rw [alookup_objSet_self]
          simp only [Option.getD_some]
          rw [alookup_objSet_ne _ _ _ _ hb'']
          simp [hb'']
    · rw [ih _ mk b'' hnd.2]
      have hstep : alookup mk (invertStep numToString b res acc e) = alookup mk acc := by
        simp only [invertStep]
        have hens : alookup mk (if (alookup e acc).isSome then acc else acc ++ [(e, [])]) =
            alookup mk acc := by
          cases he2 : (alookup e acc).isSome with
          | false =>
            simp only [he2, Bool.false_eq_true, if_false]
            exact alookup_append_single_ne acc mk e [] hmk
          | true => simp [he2]
        cases hfin : isFiniteJS (getMetric res e) with
        | false =>
          simp only [hfin, Bool.false_eq_true, if_false]
          exact hens
        | true =>
          simp only [hfin, if_true]
          rw [alookup_objSet_ne _ _ _ _ hmk]
          exact hens
      rw [hstep]
      by_cases hmr : mk ∈ rest ∧ b'' = b ∧ isFiniteJS (getMetric res mk) = true
      · rw [if_pos hmr, if_pos ⟨List.mem_cons_of_mem _ hmr.1, hmr.2⟩]
      · rw [if_neg hmr,
          if_neg (fun hc => hmr ⟨(List.mem_cons.mp hc.1).resolve_left hmk, hc.2⟩)]

theorem suiteFold_preserve (numToString : JSNum → String) :
    ∀ (P : SuiteTable) (acc : List (MetricKey × List (String × String)))
      (mk : MetricKey) (b'' : String), b'' ∉ P.map Prod.fst →
      alookup b'' ((alookup mk (P.foldl
          (fun acc kv => metricKeys.foldl (invertStep numToString kv.1 kv.2) acc) acc)).getD []) =
        alookup b'' ((alookup mk acc).getD []) := by
  intro P
  induction P with
  | nil => intro acc mk b'' _; rfl
  | cons kv rest ih =>
    intro acc mk b'' hb
    rw [List.map_cons] at hb
    have hb1 : b'' ≠ kv.1 := fun h => hb (h ▸ List.mem_cons_self _ _)
    have hb2 : b'' ∉ rest.map Prod.fst := fun h => hb (List.mem_cons_of_mem _ h)
    simp only [List.foldl_cons]
    rw [ih _ mk b'' hb2,
      metricFold_lookup numToString kv.1 kv.2 metricKeys acc mk b'' (by decide),
      if_neg (fun hc => hb1 hc.2.1)]

theorem alookup_none_not_mem {V : Type} (m : List (String × V)) (b : String)
    (h : alookup b m = none) : b ∉ m.map Prod.fst := by
  induction m with
  | nil => simp
  | cons p ps ih =>
    by_cases hp : p.1 = b
    · simp [alookup, hp] at h
    · simp only [alookup, if_neg hp] at h
      rw [List.map_cons]
      intro hmem
      rcases List.mem_cons.mp hmem with h1 | h2
      · exact hp h1.symm
      · exact ih h h2

theorem alookup_some_split {V : Type} (m : List (String × V)) (b : String) (v : V)
    (h : alookup b m = some v) :
    ∃ P₁ P₂, m = P₁ ++ (b, v) :: P₂ ∧ b ∉ P₁.map Prod.fst := by
  induction m with
  | nil => simp [alookup] at h
  | cons p ps ih =>
    obtain ⟨p1, p2⟩ := p
    by_cases hp : p1 = b
    · simp only [alookup, if_pos hp, Option.some.injEq] at h
      subst hp
      subst h
      exact ⟨[], ps, rfl, by simp⟩
    · simp only [alookup, if_neg hp] at h
      obtain ⟨P₁, P₂, heq, hnin⟩ := ih h
      refine ⟨(p1, p2) :: P₁, P₂, by rw [heq, List.cons_append], ?_⟩
      rw [List.map_cons]
      intro hmem
      rcases List.mem_cons.mp hmem with h1 | h2
      · exact hp h1.symm
      · exact hnin h2

theorem alookup_map_pair {V W : Type} (g : V → W) (m : List (String × V)) (b : String) :
    alookup b (m.map (fun p => (p.1, g p.2))) = (alookup b m).map g := by
  induction m with
  | nil => rfl
  | cons p ps ih =>
    by_cases hp : p.1 = b
    · simp [alookup, hp]
    · simp [alookup, hp, ih]

theorem metric_artifact_lookup (res : WPPerformanceResults) (mk : MetricKey) :
    alookup (metricKeyName mk) (metricKeys.map
        (fun k => (metricKeyName k, jsonOfJSNum (getMetric res k)))) =
      some (jsonOfJSNum (getMetric res mk)) := by
  cases mk <;> rfl

/-- C9: the displayed inverted table has an entry at `[metric][branch]` (the
rendered value suffixed with `' ms'`) exactly when that metric's value for
that branch is finite; the per-suite JSON artifact instead persists the
complete branch-keyed mapping, every metric key included, with no
finiteness filter (non-finite values serialize as `null` but their keys are
kept). -/
theorem invertedResult_finite_filter (numToString : JSNum → String)
    (suiteResults : SuiteTable) (hnd : (suiteResults.map Prod.fst).Nodup) :
    (∀ (mk : MetricKey) (b : String) (res : WPPerformanceResults),
      alookup b suiteResults = some res →
      alookup b ((alookup mk (invertedResult numToString suiteResults)).getD []) =
        (if isFiniteJS (getMetric res mk) = true
         then some (numToString (getMetric res mk) ++ " ms") else none)) ∧
    (∀ (mk : MetricKey) (b : String),
      alookup b suiteResults = none →
      alookup b ((alookup mk (invertedResult numToString suiteResults)).getD []) = none) ∧
    (performanceResultsArtifact suiteResults =
      JsonValue.obj (suiteResults.map (fun p => (p.1, jsonOfResults p.2)))) ∧
    (∀ b res, alookup b suiteResults = some res →
      alookup b (suiteResults.map (fun p => (p.1, jsonOfResults p.2))) =
        some (jsonOfResults res)) ∧
    (∀ (res : WPPerformanceResults) (mk : MetricKey),
      jsonOfResults res = JsonValue.obj (metricKeys.map
        (fun k => (metricKeyName k, jsonOfJSNum (getMetric res k)))) ∧
      alookup (metricKeyName mk) (metricKeys.map
          (fun k => (metricKeyName k, jsonOfJSNum (getMetric res k)))) =
        some (jsonOfJSNum (getMetric res mk))) := by
  refine ⟨?_, ?_, rfl, ?_, fun res mk => ⟨rfl, metric_artifact_lookup res mk⟩⟩
  · intro mk b res h
    obtain ⟨P₁, P₂, heq, hP₁⟩ := alookup_some_split suiteResults b res h
    subst heq
    have hkeys : (P₁.map Prod.fst ++ b :: P₂.map Prod.fst).Nodup := by
      simpa using hnd
    have hP₂ : b ∉ P₂.map Prod.fst :=
      (List.nodup_cons.mp (List.nodup_append.mp hkeys).2.1).1
    unfold invertedResult
    rw [List.foldl_append]
    simp only [List.foldl_cons]
    rw [suiteFold_preserve numToString P₂ _ mk b hP₂,
      metricFold_lookup numToString b res metricKeys _ mk b (by decide)]
    cases hfin : isFiniteJS (getMetric res mk) with
    | true =>
      rw [if_pos ⟨mem_metricKeys mk, rfl, rfl⟩, if_pos rfl]
    | false =>
      rw [if_neg (by simp), if_neg (by simp)]
      rw [suiteFold_preserve numToString P₁ _ mk b hP₁]
      rfl
  · intro mk b h
    unfold invertedResult
    rw [suiteFold_preserve numToString suiteResults _ mk b (alookup_none_not_mem _ _ h)]
    rfl
  · intro b res h
    rw [alookup_map_pair, h]
    rfl

/-- Witness for C9: with all metric values `NaN`, the display row has no
entry under the branch key, a missing branch has no entry either, and the
artifact still serializes every metric key (as `null`) for the branch. -/
theorem invertedResult_finite_filter_witness :
    alookup "trunk" ((alookup MetricKey.load
        (invertedResult (fun _ => "x") [("trunk", emptyPerf)])).getD []) =
      (if isFiniteJS (getMetric emptyPerf MetricKey.load) = true
       then some ((fun _ : JSNum => "x") (getMetric emptyPerf MetricKey.load) ++ " ms")
       else none) ∧
    alookup "other" ((alookup MetricKey.load
        (invertedResult (fun _ => "x") [("trunk", emptyPerf)])).getD []) = none ∧
    alookup "trunk" ([("trunk", emptyPerf)].map (fun p => (p.1, jsonOfResults p.2))) =
      some (jsonOfResults emptyPerf) ∧
    alookup (metricKeyName MetricKey.load) (metricKeys.map
        (fun k => (metricKeyName k, jsonOfJSNum (getMetric emptyPerf k)))) =
      some (jsonOfJSNum (getMetric emptyPerf MetricKey.load)) := by
  have h := invertedResult_finite_filter (fun _ => "x") [("trunk", emptyPerf)] (by decide)
  exact ⟨h.1 MetricKey.load "trunk" emptyPerf rfl, h.2.1 MetricKey.load "other" rfl,
    h.2.2.2.1 "trunk" emptyPerf rfl, (h.2.2.2.2 emptyPerf MetricKey.load).2⟩
